import Mathlib

/-!
# DocDB core: shallow embedding and verification

A shallow embedding of the DocDB document database core
(`packages/core/src/query.ts` and `packages/core/src/database.ts`):
the query predicate matcher (`evaluate`, `match`), the LevelDB-backed
document store (`insert`, `get`, `search`, `createIndex`, `transaction`),
and theorems settling the specified properties against it.

Modelling conventions:
* JavaScript field values are modelled by `JsValue` (strings and integer
  numbers, the value shapes the repository's documents use).
* A JavaScript object is modelled as an association list in insertion
  order (matching `for ... in` iteration order for string keys).
* LevelDB collections are ordered key-value stores: the primary store is a
  list sorted by the primary-key order, each index posting store is a list
  sorted by the lexicographic string order `strLt`; `put` is sorted
  insert-or-replace, iteration is list order, and `iterator.seek`
  drops the keys below the target.
* A rejected promise is modelled with an explicit error value.  LevelDB
  rejects `get`/`put` when the key is `undefined` (an indexed field that
  is absent from a document); `StoreErr.invalidKey` models that rejection.
-/

namespace DocDB

/-- A JavaScript document field value: a string or an (integer) number. -/
inductive JsValue where
  | str : String → JsValue
  | num : Int → JsValue
deriving DecidableEq, Repr

/-- A document: a JavaScript object, i.e. fields in insertion order. -/
abbrev Doc := List (String × JsValue)

/-- Key lookup in an association list: JavaScript property access
(`key in obj` / `obj[key]`) and LevelDB point `get` (resolving to the
value, or `none` for a `NotFound` rejection). -/
def lookupF {K β : Type} [DecidableEq K] : List (K × β) → K → Option β
  | [], _ => none
  | (k', v) :: rest, k => if k' = k then some v else lookupF rest k

/-- JavaScript `ToNumber` on a string, restricted to the integer-literal
strings the document model can hold: the empty string is `0`, an optional
sign followed by digits is that integer, anything else is `NaN` (`none`). -/
def strToNumber (s : String) : Option Int :=
  let natOf : List Char → Int := fun cs =>
    Int.ofNat (cs.foldl (fun n c => 10 * n + (c.toNat - 48)) 0)
  match s.data with
  | [] => some 0
  | '-' :: rest =>
    if rest ≠ [] ∧ rest.all Char.isDigit then some (-(natOf rest)) else none
  | '+' :: rest =>
    if rest ≠ [] ∧ rest.all Char.isDigit then some (natOf rest) else none
  | cs => if cs.all Char.isDigit then some (natOf cs) else none

/-- JavaScript `value > n` for a field value and a numeric operand:
numbers compare numerically, strings are converted with `ToNumber`
(a non-numeric string gives `NaN`, and any comparison with `NaN` is
false). -/
def jsGt (v : JsValue) (n : Int) : Bool :=
  match v with
  | JsValue.num m => n < m
  | JsValue.str s =>
    match strToNumber s with
    | some m => n < m
    | none => false

/-- One key of a query operator object (`QueryItem` in `query.ts`), in
iteration order.  `$eq` and `$neq` carry string operands and `$gt` a
numeric operand that may be `undefined` (per the TypeScript type
`\x7b $eq?: string \x7d & \x7b $neq?: string \x7d & \x7b $gt?: number \x7d`);
`other` is an unrecognized key. -/
inductive OpEntry where
  | opEq : String → OpEntry
  | opNeq : String → OpEntry
  | opGt : Option Int → OpEntry
  | other : String → OpEntry
deriving DecidableEq, Repr

/-- An operator object: its keys in insertion order. -/
abbrev QueryItem := List OpEntry

/-- `evaluate(item, value)` from `query.ts`: walk the operator object's
keys in order; the first recognized operator key returns
(`$eq`: strict equality, `$neq`: strict inequality, `$gt`:
`value > (item.$gt || 0)`); if no recognized key is found, `false`. -/
def evaluate : QueryItem → JsValue → Bool
  | [], _ => false
  | OpEntry.opEq s :: _, v => v == JsValue.str s
  | OpEntry.opNeq s :: _, v => v != JsValue.str s
  | OpEntry.opGt n :: _, v => jsGt v (n.getD 0)
  | OpEntry.other _ :: rest, v => evaluate rest v

/-- The first recognized operator key of an operator object
(spec side, for the claim that only that key is consulted). -/
def firstRecognized : QueryItem → Option OpEntry
  | [] => none
  | OpEntry.other _ :: rest => firstRecognized rest
  | e :: _ => some e

/-- The behaviour of `evaluate` as the specification describes it: only the
first recognized operator key is consulted; `$eq` tests strict equality
with the operand, `$neq` strict difference, `$gt` tests greater-than
against the operand with an absent/undefined operand treated as zero; with
no recognized operator key the result is `false`. -/
def evaluateDescribed (it : QueryItem) (v : JsValue) : Bool :=
  match firstRecognized it with
  | some (OpEntry.opEq s) => v == JsValue.str s
  | some (OpEntry.opNeq s) => !(v == JsValue.str s)
  | some (OpEntry.opGt n) => jsGt v (n.getD 0)
  | some (OpEntry.other _) => false
  | none => false

/-- The value at one key of a query object: either an operator object
(a field predicate) or an array of sub-queries (the value of `$or`).
A query object (`Query` in `query.ts`) is its keys in insertion order,
each paired with such a value. -/
inductive QVal where
  | item : QueryItem → QVal
  | arr : List (List (String × QVal)) → QVal

/-- A query object: keys in insertion order. -/
abbrev Query := List (String × QVal)

/-- The errors `match` throws: `invalidOr` for a `$or` whose value is not
an array, `invalidField k` for a field predicate whose value is an
array. -/
inductive MatchError where
  | invalidOr : MatchError
  | invalidField : String → MatchError
deriving DecidableEq, Repr

mutual

/-- `match(query, document)` from `query.ts`: iterate the query object's
keys in order.  A `$or` key must hold an array (else throw) and the call
returns `value.some(q => match(q, document))` at once; any other key is a
field predicate, must not hold an array (else throw), and when the field
is present on the document and its operator evaluates false the call
returns `false`; reaching the end of the keys returns `true`. -/
def matchQ : Query → Doc → Except MatchError Bool
  | [], _ => Except.ok true
  | (k, v) :: rest, d =>
    if k = "$or" then
      match v with
      | QVal.item _ => Except.error MatchError.invalidOr
      | QVal.arr qs => anyMatch qs d
    else
      match v with
      | QVal.arr _ => Except.error (MatchError.invalidField k)
      | QVal.item it =>
        match lookupF d k with
        | some fv => if evaluate it fv then matchQ rest d else Except.ok false
        | none => matchQ rest d
termination_by q _ => sizeOf q
decreasing_by all_goals (simp_wf <;> omega)

/-- `value.some(q => match(q, document))`: test the sub-queries left to
right, stopping at the first match; an exception thrown by a sub-match
propagates. -/
def anyMatch : List Query → Doc → Except MatchError Bool
  | [], _ => Except.ok false
  | q :: qs, d =>
    match matchQ q d with
    | Except.error e => Except.error e
    | Except.ok true => Except.ok true
    | Except.ok false => anyMatch qs d
termination_by qs _ => sizeOf qs
decreasing_by all_goals (simp_wf <;> omega)

end

mutual

/-- The result of `match` as the claim describes it, on queries where no
shape error is raised: iterate the keys in order; at a `$or` key return at
once whether at least one sub-query matches (later sibling keys are never
evaluated); a field-predicate key whose field is present and whose
operator evaluates false makes the result false; an absent field is
treated as satisfied; no keys at all match vacuously.  (On the ill-shaped
cases, which raise instead, the value returned here is irrelevant.) -/
def matchDescribed : Query → Doc → Bool
  | [], _ => true
  | (k, v) :: rest, d =>
    if k = "$or" then
      match v with
      | QVal.item _ => false
      | QVal.arr qs => anyDescribed qs d
    else
      match v with
      | QVal.arr _ => false
      | QVal.item it =>
        match lookupF d k with
        | some fv => evaluate it fv && matchDescribed rest d
        | none => matchDescribed rest d
termination_by q _ => sizeOf q
decreasing_by all_goals (simp_wf <;> omega)

/-- At least one of the sub-queries matches. -/
def anyDescribed : List Query → Doc → Bool
  | [], _ => false
  | q :: qs, d => matchDescribed q d || anyDescribed qs d
termination_by qs _ => sizeOf qs
decreasing_by all_goals (simp_wf <;> omega)

end

mutual

/-- Whether `match` raises a shape error, as the claim describes it:
iterating the keys in order, before any earlier key causes a return, a
`$or` key holding a non-array is reached, or a field-predicate key holding
an array is reached (including inside the sub-queries that a `$or`
evaluates before finding a match). -/
def raisesShapeError : Query → Doc → Bool
  | [], _ => false
  | (k, v) :: rest, d =>
    if k = "$or" then
      match v with
      | QVal.item _ => true
      | QVal.arr qs => orRaises qs d
    else
      match v with
      | QVal.arr _ => true
      | QVal.item it =>
        match lookupF d k with
        | some fv => if evaluate it fv then raisesShapeError rest d else false
        | none => raisesShapeError rest d
termination_by q _ => sizeOf q
decreasing_by all_goals (simp_wf <;> omega)

/-- Whether evaluating the sub-queries of a `$or` left to right raises a
shape error before one of them matches. -/
def orRaises : List Query → Doc → Bool
  | [], _ => false
  | q :: qs, d =>
    if raisesShapeError q d then true
    else if matchDescribed q d then false
    else orRaises qs d
termination_by qs _ => sizeOf qs
decreasing_by all_goals (simp_wf <;> omega)

end

/-- Whether an `Except` value is an error. -/
def isErr {ε α : Type} : Except ε α → Bool
  | Except.error _ => true
  | Except.ok _ => false

/-- Lexicographic (codepoint) order on character lists, the order LevelDB
keeps its keys in (UTF-8 byte order agrees with codepoint order). -/
def charListLt : List Char → List Char → Bool
  | _, [] => false
  | [], _ :: _ => true
  | a :: as, b :: bs =>
    if a.toNat < b.toNat then true
    else if b.toNat < a.toNat then false
    else charListLt as bs

/-- Lexicographic order on strings (LevelDB key order). -/
def strLt (s t : String) : Bool := charListLt s.data t.data

/-- JavaScript `key.startsWith(pre)`. -/
def jsStartsWith (key pre : String) : Bool := pre.data.isPrefixOf key.data

/-- An index posting store (`Level<string, any[]>`): indexed field value →
posting list of primary keys, kept in ascending key order. -/
abbrev PStore (K : Type) := List (String × List K)

/-- LevelDB `put` on a posting store: insert or replace, keeping the keys
in ascending order. -/
def putStore {K : Type} : PStore K → String → List K → PStore K
  | [], k, l => [(k, l)]
  | (k', l') :: rest, k, l =>
    if strLt k k' then (k, l) :: (k', l') :: rest
    else if k = k' then (k, l) :: rest
    else (k', l') :: putStore rest k l

/-- The posting list stored under a value, with a missed lookup recovered
as the empty list (the `try \x7b ... \x7d catch \x7b [] \x7d` pattern). -/
def lookupD {K : Type} (ps : PStore K) (v : String) : List K :=
  (lookupF ps v).getD []

/-- The query part of a `Search` request: the optional `$eq` and
`$startsWith` terms. -/
structure SearchQuery where
  eq : Option String
  startsWith : Option String
deriving DecidableEq, Repr

/-- The `$startsWith` scan loop of `Database.search`: walk the iterator
forward, concatenating each posting list onto the accumulated keys while
the key starts with the prefix, and stop (`break`) at the first key that
does not. -/
def scanLoop {K : Type} (p : String) : PStore K → List K → List K
  | [], keys => keys
  | (key, value) :: rest, keys =>
    if jsStartsWith key p then scanLoop p rest (keys ++ value) else keys

/-- LevelDB `iterator.seek(p)`: position the iterator at the first key
`≥ p` (drop the keys ordered before `p`). -/
def seekTo {K : Type} (p : String) (ps : PStore K) : PStore K :=
  ps.dropWhile (fun e => strLt e.1 p)

/-- The key-accumulation phase of `Database.search`: start from no keys;
if `$eq` is present, point-lookup its posting list (a miss gives `[]`);
if `$startsWith` is present, seek to the prefix and run the scan loop,
concatenating onto whatever the `$eq` branch accumulated. -/
def searchKeys {K : Type} (st : PStore K) (q : SearchQuery) : List K :=
  let keys : List K := []
  let keys :=
    match q.eq with
    | none => keys
    | some e => (lookupF st e).getD []
  match q.startsWith with
  | none => keys
  | some p => scanLoop p (seekTo p st) keys

/-- An index definition as recorded in `meta.json`
(`\x7b field, type \x7d`). The kind is the runtime string the
`switch` in `createIndex` inspects. -/
structure IndexDef where
  field : String
  type : String
deriving DecidableEq, Repr

/-- The argument of `createIndex` (`\x7b name, field, type \x7d`). -/
structure IndexOptions where
  name : String
  field : String
  type : String
deriving DecidableEq, Repr

/-- The state of one `Database`: the primary document store (sorted by
primary key), the per-index posting stores under `root/index/<name>`, and
the metadata's index-definition map. -/
structure DB (K : Type) where
  primary : List (K × Doc)
  stores : List (String × PStore K)
  meta : List (String × IndexDef)
deriving DecidableEq

/-- JavaScript object property assignment (`obj[k] = v`): replace in
place if the key exists, else append. -/
def assocPut {K β : Type} [DecidableEq K] : List (K × β) → K → β → List (K × β)
  | [], k, v => [(k, v)]
  | (k', v') :: rest, k, v =>
    if k' = k then (k, v) :: rest else (k', v') :: assocPut rest k v

/-- LevelDB `put` on the primary store: insert or replace (upsert),
keeping the keys in ascending order. -/
def putSorted {K : Type} [LinearOrder K] : List (K × Doc) → K → Doc → List (K × Doc)
  | [], k, d => [(k, d)]
  | (k', d') :: rest, k, d =>
    if k < k' then (k, d) :: (k', d') :: rest
    else if k = k' then (k, d) :: rest
    else (k', d') :: putSorted rest k d

/-- The LevelDB key a field value is stored under in a posting store
(string keys stay themselves, numbers are stringified by the `utf8`
key encoding). -/
def jsValueToKey : JsValue → String
  | JsValue.str s => s
  | JsValue.num n => toString n

/-- `(value as any)[index.field]` coerced to a posting-store key:
`none` when the field is absent (`undefined`). -/
def indexKeyOf (d : Doc) (field : String) : Option String :=
  (lookupF d field).map jsValueToKey

/-- A store-level rejection: LevelDB rejects `get`/`put` on an
`undefined` key, which happens when an indexed field is absent from a
document (the rejected `get` is caught locally, the rejected `put` is
not). -/
inductive StoreErr where
  | invalidKey : StoreErr
deriving DecidableEq, Repr

/-- The store of one `Database`'s index by name; opening a posting store
creates it, so a name that was never written reads as the empty store. -/
def storeOf {K : Type} (db : DB K) (name : String) : PStore K :=
  (lookupF db.stores name).getD []

/-- The rebuild loop of `createIndex`: scan the whole primary store in
key order; for each document project the indexed field, fetch its current
posting list (a missed `get` is caught as `[]`), and if the primary key
is not yet a member, append it and `put` the updated list.  A document
whose field is absent makes the uncaught `put(undefined, ...)` reject,
aborting the loop with the store as written so far. -/
def buildLoop {K : Type} [DecidableEq K] (field : String) :
    List (K × Doc) → PStore K → PStore K × Option StoreErr
  | [], ps => (ps, none)
  | (key, value) :: rest, ps =>
    match indexKeyOf value field with
    | none => (ps, some StoreErr.invalidKey)
    | some ik =>
      let indexValue := lookupD ps ik
      if key ∈ indexValue then buildLoop field rest ps
      else buildLoop field rest (putStore ps ik (indexValue ++ [key]))

/-- `Database.createIndex`: open the named posting store; for the
recognized kinds (`"number"`/`"text"`) run the rebuild loop over the
primary store, for any other kind do nothing; then record the definition
in metadata — unless the rebuild loop rejected, in which case the error
propagates before the metadata assignment. -/
def createIndexRun {K : Type} [DecidableEq K] (db : DB K) (opts : IndexOptions) :
    DB K × Option StoreErr :=
  let ps := storeOf db opts.name
  if opts.type = "number" ∨ opts.type = "text" then
    match buildLoop opts.field db.primary ps with
    | (ps', none) =>
      ({ db with stores := assocPut db.stores opts.name ps',
                 meta := assocPut db.meta opts.name ⟨opts.field, opts.type⟩ },
       none)
    | (ps', some e) =>
      ({ db with stores := assocPut db.stores opts.name ps' }, some e)
  else
    ({ db with stores := assocPut db.stores opts.name ps,
               meta := assocPut db.meta opts.name ⟨opts.field, opts.type⟩ },
     none)

/-- The per-insert index maintenance: `for (const name in
this.meta.indexes) await this.createIndex(...)` over a snapshot of the
metadata entries, stopping at the first rejection. -/
def rebuildList {K : Type} [DecidableEq K] :
    DB K → List (String × IndexDef) → DB K × Option StoreErr
  | db, [] => (db, none)
  | db, (name, idef) :: rest =>
    match createIndexRun db ⟨name, idef.field, idef.type⟩ with
    | (db', none) => rebuildList db' rest
    | (db', some e) => (db', some e)

/-- Rebuild every index currently registered in metadata. -/
def rebuildAll {K : Type} [DecidableEq K] (db : DB K) : DB K × Option StoreErr :=
  rebuildList db db.meta

/-- `Database.insert`: `put` the document into the primary store, then
rebuild every registered index. -/
def insertRun {K : Type} [LinearOrder K] (db : DB K) (k : K) (d : Doc) :
    DB K × Option StoreErr :=
  rebuildAll { db with primary := putSorted db.primary k d }

/-- `Database.get`: point lookup in the primary store (`none` models the
`NotFound` rejection). -/
def getRun {K : Type} [DecidableEq K] (db : DB K) (k : K) : Option Doc :=
  lookupF db.primary k

/-- `Level.getMany`: one lookup per key, a missing key giving an
`undefined` slot. -/
def getMany {K : Type} [DecidableEq K] (db : DB K) (ks : List K) : List (Option Doc) :=
  ks.map (lookupF db.primary)

/-- `Database.search`: open the index's posting store, accumulate keys
from the `$eq` and `$startsWith` branches, and if any keys were
accumulated `getMany` them from the primary store, else return `[]`
without touching the primary store. -/
def searchRun {K : Type} [DecidableEq K] (db : DB K) (index : String)
    (q : SearchQuery) : List (Option Doc) :=
  let st := storeOf db index
  let keys := searchKeys st q
  if keys.length ≠ 0 then getMany db keys else []

/-- The restricted `insert` a `transaction` body receives: a bare primary
`put` with no index maintenance. -/
def txInsert {K : Type} [LinearOrder K] (db : DB K) (k : K) (d : Doc) : DB K :=
  { db with primary := putSorted db.primary k d }

/-- Running a transaction body that performs the given inserts through
the restricted view. -/
def applyBody {K : Type} [LinearOrder K] (db : DB K) (body : List (K × Doc)) : DB K :=
  body.foldl (fun s kd => txInsert s kd.1 kd.2) db

/-- How a `transaction` call fails: the body itself threw, or a rebuild
after the body rejected. -/
inductive TxErr where
  | bodyFailed : TxErr
  | store : StoreErr → TxErr
deriving DecidableEq, Repr

/-- `Database.transaction`: run the body's inserts through the restricted
view; if the body throws, propagate without rebuilding; otherwise rebuild
every registered index once. -/
def transactionRun {K : Type} [LinearOrder K] (db : DB K) (body : List (K × Doc))
    (bodyFails : Bool) : DB K × Option TxErr :=
  let db1 := applyBody db body
  if bodyFails then (db1, some TxErr.bodyFailed)
  else
    match rebuildAll db1 with
    | (db2, none) => (db2, none)
    | (db2, some e) => (db2, some (TxErr.store e))

/-- The last value a body wrote for a key (spec side, for the statement
that documents written before a failure remain). -/
def lastW {K : Type} [DecidableEq K] (body : List (K × Doc)) (k : K) : Option Doc :=
  body.foldl (fun acc kd => if kd.1 = k then some kd.2 else acc) none

/-- The posting-store sort invariant LevelDB maintains. -/
def storeSorted {K : Type} (st : PStore K) : Prop :=
  st.Pairwise (fun a b => strLt a.1 b.1 = true)

/-! ### Concrete fixtures (the README scenarios) -/

/-- The README's `$or` query: type is `"comment"` or `"post"`. -/
def exampleQuery : Query :=
  [("$or", QVal.arr
    [[("type", QVal.item [OpEntry.opEq "comment"])],
     [("type", QVal.item [OpEntry.opEq "post"])]])]

/-- A document the README query matches. -/
def exampleDoc : Doc := [("id", JsValue.num 1), ("type", JsValue.str "post")]

/-- A database with two titled documents and no indexes yet. -/
def idxDb : DB Nat :=
  ⟨[(1, [("title", JsValue.str "Node Advanced")]),
    (2, [("title", JsValue.str "Node JS Basics")])], [], []⟩

/-- The README's text index on `title`. -/
def idxOpts : IndexOptions := ⟨"title:text", "title", "text"⟩

/-- The posting store the README index build produces. -/
def searchSt : PStore Nat :=
  [("Node Advanced", [1]), ("Node JS Basics", [2])]

/-- The database of `idxDb` with the title index built. -/
def searchDb : DB Nat :=
  ⟨[(1, [("title", JsValue.str "Node Advanced")]),
    (2, [("title", JsValue.str "Node JS Basics")])],
   [("title:text", searchSt)],
   [("title:text", ⟨"title", "text"⟩)]⟩

/-- An empty database with a registered title index. -/
def txDb : DB Nat := ⟨[], [("title:text", [])], [("title:text", ⟨"title", "text"⟩)]⟩

/-- A transaction body inserting two documents. -/
def txBody : List (Nat × Doc) :=
  [(1, [("title", JsValue.str "Alpha")]), (2, [("title", JsValue.str "Beta")])]

/-- A database and index options with an unrecognized index kind. -/
def vecDb : DB Nat := ⟨[(1, [("vec", JsValue.str "a")])], [], []⟩

/-- Index options whose kind `"vector"` is neither Text nor Number. -/
def vecOpts : IndexOptions := ⟨"embedding", "vec", "vector"⟩

mutual

/-- Master characterization of `match`: it raises exactly when
`raisesShapeError` says so, and otherwise returns `matchDescribed`. -/
theorem matchQ_spec (q : Query) (d : Doc) :
    (raisesShapeError q d = true → isErr (matchQ q d) = true) ∧
    (raisesShapeError q d = false →
      matchQ q d = Except.ok (matchDescribed q d)) := by
  match q with
  | [] =>
    constructor <;> intro h <;>
      simp_all [raisesShapeError, matchQ, matchDescribed]
  | (k, v) :: rest =>
    by_cases hk : k = "$or"
    · subst hk
      match v with
      | QVal.item it =>
        constructor <;> intro h <;>
          simp_all [raisesShapeError, matchQ, isErr]
      | QVal.arr qs =>
        have ih := anyMatch_spec qs d
        constructor <;> intro h <;>
          simp_all [raisesShapeError, matchQ, matchDescribed]
    · match v with
      | QVal.arr _ =>
        constructor <;> intro h <;>
          simp_all [raisesShapeError, matchQ, isErr]
      | QVal.item it =>
        match hf : lookupF d k with
        | some fv =>
          by_cases he : evaluate it fv
          · have ih := matchQ_spec rest d
            constructor <;> intro h <;>
              simp_all [raisesShapeError, matchQ, matchDescribed]
          · constructor <;> intro h <;>
              simp_all [raisesShapeError, matchQ, matchDescribed]
        | none =>
          have ih := matchQ_spec rest d
          constructor <;> intro h <;>
            simp_all [raisesShapeError, matchQ, matchDescribed]
termination_by sizeOf q
decreasing_by all_goals (simp_wf <;> omega)

/-- Master characterization of the `$or` evaluation. -/
theorem anyMatch_spec (qs : List Query) (d : Doc) :
    (orRaises qs d = true → isErr (anyMatch qs d) = true) ∧
    (orRaises qs d = false →
      anyMatch qs d = Except.ok (anyDescribed qs d)) := by
  match qs with
  | [] =>
    constructor <;> intro h <;> simp_all [orRaises, anyMatch, anyDescribed]
  | q :: qs' =>
    have ihq := matchQ_spec q d
    have ihl := anyMatch_spec qs' d
    by_cases hr : raisesShapeError q d
    · have := ihq.1 hr
      match hm : matchQ q d with
      | Except.error e =>
        constructor <;> intro h <;>
          simp_all [orRaises, anyMatch, isErr]
      | Except.ok b => simp_all [isErr]
    · have hok := ihq.2 (by simpa using hr)
      by_cases hb : matchDescribed q d
      · constructor <;> intro h <;>
          simp_all [orRaises, anyMatch, anyDescribed]
      · constructor <;> intro h <;>
          simp_all [orRaises, anyMatch, anyDescribed]
termination_by sizeOf qs
decreasing_by all_goals (simp_wf <;> omega)

end

/-! ## Association-list and store lemmas -/

theorem lookupF_assocPut {K β : Type} [DecidableEq K] (st : List (K × β))
    (k : K) (v : β) (k' : K) :
    lookupF (assocPut st k v) k' = if k = k' then some v else lookupF st k' := by
  induction st with
  | nil => simp [assocPut, lookupF]
  | cons e rest ih =>
    obtain ⟨k0, v0⟩ := e
    by_cases h0 : k0 = k
    · subst h0
      by_cases h1 : k0 = k' <;> simp [assocPut, lookupF, h1]
    · by_cases h2 : k0 = k'
      · subst h2
        have hkk : k ≠ k0 := fun h => h0 h.symm
        simp [assocPut, h0, lookupF, hkk]
      · simp [assocPut, h0, lookupF, h2, ih]

theorem assocPut_idem {K β : Type} [DecidableEq K] (st : List (K × β)) (k : K) (v : β) :
    assocPut (assocPut st k v) k v = assocPut st k v := by
  induction st with
  | nil => simp [assocPut]
  | cons e rest ih =>
    obtain ⟨k0, v0⟩ := e
    by_cases h0 : k0 = k <;> simp [assocPut, h0, ih]

theorem lookupF_putSorted {K : Type} [LinearOrder K] (st : List (K × Doc))
    (k : K) (d : Doc) (k' : K) :
    lookupF (putSorted st k d) k' = if k = k' then some d else lookupF st k' := by
  induction st with
  | nil => simp [putSorted, lookupF]
  | cons e rest ih =>
    obtain ⟨k0, d0⟩ := e
    rw [putSorted]
    by_cases hlt : k < k0
    · rw [if_pos hlt]
      by_cases h1 : k = k' <;> simp [lookupF, h1]
    · rw [if_neg hlt]
      by_cases heq : k = k0
      · subst heq
        rw [if_pos rfl]
        by_cases h1 : k = k' <;> simp [lookupF, h1]
      · rw [if_neg heq]
        by_cases h2 : k0 = k'
        · subst h2
          have hkk : k ≠ k0 := heq
          simp [lookupF, hkk]
        · simp [lookupF, h2, ih]

theorem lookupF_putStore {K : Type} (ps : PStore K) (k : String) (l : List K)
    (v : String) :
    lookupF (putStore ps k l) v = if k = v then some l else lookupF ps v := by
  induction ps with
  | nil => simp [putStore, lookupF]
  | cons e rest ih =>
    obtain ⟨k0, l0⟩ := e
    rw [putStore]
    by_cases hlt : strLt k k0
    · rw [if_pos hlt]
      by_cases h1 : k = v <;> simp [lookupF, h1]
    · rw [if_neg hlt]
      by_cases heq : k = k0
      · subst heq
        rw [if_pos rfl]
        by_cases h1 : k = v <;> simp [lookupF, h1]
      · rw [if_neg heq]
        by_cases h2 : k0 = v
        · subst h2
          have hkk : k ≠ k0 := heq
          simp [lookupF, hkk]
        · simp [lookupF, h2, ih]

theorem lookupD_putStore {K : Type} (ps : PStore K) (k : String) (l : List K)
    (v : String) :
    lookupD (putStore ps k l) v = if k = v then l else lookupD ps v := by
  by_cases h : k = v <;> simp [lookupD, lookupF_putStore, h]

theorem lookupF_mem {K β : Type} [DecidableEq K] {st : List (K × β)} {k : K} {v : β}
    (h : lookupF st k = some v) : (k, v) ∈ st := by
  induction st with
  | nil => simp [lookupF] at h
  | cons e rest ih =>
    obtain ⟨k0, v0⟩ := e
    by_cases h0 : k0 = k
    · subst h0
      simp [lookupF] at h
      simp [h]
    · simp [lookupF, h0] at h
      exact List.mem_cons_of_mem _ (ih h)

theorem mem_lookupF {K β : Type} [DecidableEq K] {st : List (K × β)} {k : K} {v : β}
    (hnd : (st.map Prod.fst).Nodup) (h : (k, v) ∈ st) : lookupF st k = some v := by
  induction st with
  | nil => simp at h
  | cons e rest ih =>
    obtain ⟨k0, v0⟩ := e
    rw [List.map_cons, List.nodup_cons] at hnd
    rcases List.mem_cons.mp h with h | h
    · rw [Prod.mk.injEq] at h
      simp [lookupF, h.1.symm, h.2]
    · have hk0 : k0 ≠ k := by
        intro hcontra
        subst hcontra
        exact hnd.1 (List.mem_map.mpr ⟨(k0, v), h, rfl⟩)
      simp [lookupF, hk0, ih hnd.2 h]

/-! ## Primary-store preservation by index maintenance -/

theorem createIndexRun_primary {K : Type} [DecidableEq K] (db : DB K)
    (opts : IndexOptions) : (createIndexRun db opts).1.primary = db.primary := by
  simp only [createIndexRun]
  split
  · split <;> rfl
  · rfl

theorem createIndexRun_meta_sub {K : Type} [DecidableEq K] (db : DB K)
    (opts : IndexOptions) :
    (createIndexRun db opts).1.meta = db.meta ∨
    (createIndexRun db opts).1.meta =
      assocPut db.meta opts.name ⟨opts.field, opts.type⟩ := by
  simp only [createIndexRun]
  split
  · split
    · right; rfl
    · left; rfl
  · right; rfl

theorem rebuildList_primary {K : Type} [DecidableEq K] (l : List (String × IndexDef))
    (db : DB K) : (rebuildList db l).1.primary = db.primary := by
  induction l generalizing db with
  | nil => rfl
  | cons e rest ih =>
    obtain ⟨name, idef⟩ := e
    have hp := createIndexRun_primary db ⟨name, idef.field, idef.type⟩
    simp only [rebuildList]
    rcases hm : createIndexRun db ⟨name, idef.field, idef.type⟩ with ⟨db', err⟩
    rw [hm] at hp
    cases err with
    | none => rw [ih db']; exact hp
    | some e' => exact hp

/-! ## Scan-loop accumulator -/

theorem scanLoop_append {K : Type} (p : String) (ps : PStore K) (acc : List K) :
    scanLoop p ps acc = acc ++ scanLoop p ps [] := by
  induction ps generalizing acc with
  | nil => simp [scanLoop]
  | cons e rest ih =>
    obtain ⟨key, value⟩ := e
    by_cases h : jsStartsWith key p
    · have e1 : ∀ a : List K, scanLoop p ((key, value) :: rest) a =
          scanLoop p rest (a ++ value) := by
        intro a
        show (if jsStartsWith key p then scanLoop p rest (a ++ value) else a) = _
        rw [if_pos h]
      rw [e1, e1, ih, ih ([] ++ value)]
      simp
    · simp [scanLoop, h]

/-! ## The lexicographic key order -/

theorem charListLt_irrefl (l : List Char) : charListLt l l = false := by
  induction l with
  | nil => rfl
  | cons a as ih =>
    show (if a.toNat < a.toNat then true
          else if a.toNat < a.toNat then false else charListLt as as) = false
    rw [if_neg (lt_irrefl _), if_neg (lt_irrefl _)]
    exact ih

theorem charListLt_trans {a b c : List Char} (h1 : charListLt a b = true)
    (h2 : charListLt b c = true) : charListLt a c = true := by
  induction a generalizing b c with
  | nil =>
    cases b with
    | nil => simp [charListLt] at h1
    | cons y bs =>
      cases c with
      | nil => simp [charListLt] at h2
      | cons z cs => rfl
  | cons x as ih =>
    cases b with
    | nil => simp [charListLt] at h1
    | cons y bs =>
      cases c with
      | nil => simp [charListLt] at h2
      | cons z cs =>
        simp only [charListLt] at h1 h2 ⊢
        by_cases hxy : x.toNat < y.toNat
        · by_cases hyz : y.toNat < z.toNat
          · rw [if_pos (hxy.trans hyz)]
          · rw [if_neg hyz] at h2
            by_cases hzy : z.toNat < y.toNat
            · rw [if_pos hzy] at h2
              exact absurd h2 (by simp)
            · rw [if_pos (by omega)]
        · rw [if_neg hxy] at h1
          by_cases hyx : y.toNat < x.toNat
          · rw [if_pos hyx] at h1
            exact absurd h1 (by simp)
          · rw [if_neg hyx] at h1
            by_cases hyz : y.toNat < z.toNat
            · rw [if_pos (by omega)]
            · rw [if_neg hyz] at h2
              by_cases hzy : z.toNat < y.toNat
              · rw [if_pos hzy] at h2
                exact absurd h2 (by simp)
              · rw [if_neg hzy] at h2
                rw [if_neg (by omega), if_neg (by omega)]
                exact ih h1 h2

theorem charListLt_asymm {a b : List Char} (h : charListLt a b = true) :
    charListLt b a = false := by
  cases h2 : charListLt b a
  · rfl
  · have := charListLt_trans h h2
    rw [charListLt_irrefl] at this
    exact absurd this (by simp)

theorem strLt_trans {a b c : String} (h1 : strLt a b = true)
    (h2 : strLt b c = true) : strLt a c = true :=
  charListLt_trans h1 h2

theorem strLt_asymm {a b : String} (h : strLt a b = true) : strLt b a = false :=
  charListLt_asymm h

theorem strLt_irrefl (s : String) : strLt s s = false :=
  charListLt_irrefl s.data

theorem not_lt_of_append (p t : List Char) : charListLt (p ++ t) p = false := by
  induction p with
  | nil => cases t <;> rfl
  | cons a p' ih =>
    show (if a.toNat < a.toNat then true
          else if a.toNat < a.toNat then false else charListLt (p' ++ t) p') = false
    rw [if_neg (lt_irrefl _), if_neg (lt_irrefl _)]
    exact ih

/-- A string with prefix `p` is never ordered strictly before `p`. -/
theorem prefix_not_lt {p w : List Char} (h : p.isPrefixOf w = true) :
    charListLt w p = false := by
  obtain ⟨t, rfl⟩ := List.isPrefixOf_iff_prefix.mp h
  exact not_lt_of_append p t

/-- If `w` has prefix `p` while `u` is at least `p` but lacks the prefix,
then `w` is ordered strictly before `u`: the keys with prefix `p` form a
contiguous range straight after the seek target. -/
theorem lt_of_prefix_of_not_prefix {p u w : List Char}
    (hpw : p.isPrefixOf w = true) (hup : charListLt u p = false)
    (hpu : p.isPrefixOf u = false) : charListLt w u = true := by
  induction p generalizing u w with
  | nil => simp [List.isPrefixOf] at hpu
  | cons a p' ih =>
    cases u with
    | nil => simp [charListLt] at hup
    | cons b us =>
      cases w with
      | nil => simp [List.isPrefixOf] at hpw
      | cons c ws =>
        simp only [List.isPrefixOf, Bool.and_eq_true, beq_iff_eq] at hpw
        obtain ⟨rfl, hpw'⟩ := hpw
        simp only [charListLt] at hup ⊢
        by_cases hba : b.toNat < a.toNat
        · rw [if_pos hba] at hup
          exact absurd hup (by simp)
        · rw [if_neg hba] at hup
          by_cases hab : a.toNat < b.toNat
          · rw [if_pos hab]
          · rw [if_neg hab] at hup
            have hh : a = b := by
              apply Char.ext
              apply UInt32.ext
              simp only [Char.toNat] at hab hba
              omega
            subst hh
            simp only [List.isPrefixOf] at hpu
            have hpu' : p'.isPrefixOf us = false := by simpa using hpu
            rw [if_neg hab, if_neg hba]
            exact ih hpw' hup hpu'

/-! ## The prefix scan equals a filter on a sorted store -/

theorem seekTo_not_lt {K : Type} {st : PStore K} {p : String}
    (hs : storeSorted st) : ∀ e ∈ seekTo p st, strLt e.1 p = false := by
  induction st with
  | nil => simp [seekTo]
  | cons x rest ih =>
    rw [storeSorted, List.pairwise_cons] at hs
    intro e he
    by_cases h : strLt x.1 p
    · rw [seekTo, List.dropWhile_cons, if_pos (by simpa using h)] at he
      exact ih hs.2 e he
    · rw [seekTo, List.dropWhile_cons, if_neg (by simpa using h)] at he
      rcases List.mem_cons.mp he with rfl | he'
      · simpa using h
      · cases hcl : strLt e.1 p
        · rfl
        · have := strLt_trans (hs.1 e he') hcl
          simp only [Bool.not_eq_true] at h
          rw [h] at this
          exact absurd this (by simp)

theorem storeSorted_seekTo {K : Type} {st : PStore K} {p : String}
    (hs : storeSorted st) : storeSorted (seekTo p st) :=
  List.Pairwise.sublist (List.dropWhile_sublist _) hs

/-- On a sorted store whose keys are all `≥ p`, the scan loop collects
exactly the posting lists of the keys with prefix `p`, in order. -/
theorem scanLoop_eq_filter {K : Type} {st : PStore K} {p : String}
    (hge : ∀ e ∈ st, strLt e.1 p = false) (hs : storeSorted st) :
    scanLoop p st [] =
      (st.filter (fun e => jsStartsWith e.1 p)).flatMap Prod.snd := by
  induction st with
  | nil => rfl
  | cons x rest ih =>
    obtain ⟨xk, xv⟩ := x
    rw [storeSorted, List.pairwise_cons] at hs
    by_cases hpre : jsStartsWith xk p
    · have e1 : scanLoop p ((xk, xv) :: rest) [] = scanLoop p rest ([] ++ xv) := by
        show (if jsStartsWith xk p then scanLoop p rest ([] ++ xv) else []) = _
        rw [if_pos hpre]
      rw [e1, List.nil_append, scanLoop_append, List.filter_cons_of_pos (by simpa using hpre),
        List.flatMap_cons]
      have hge' : ∀ e ∈ rest, strLt e.1 p = false := fun e he =>
        hge e (List.mem_cons_of_mem _ he)
      rw [ih hge' hs.2]
    · have e1 : scanLoop p ((xk, xv) :: rest) [] = [] := by
        show (if jsStartsWith xk p then scanLoop p rest ([] ++ xv) else []) = _
        rw [if_neg (by simpa using hpre)]
      have hrest : ∀ e ∈ rest, ¬(jsStartsWith e.1 p = true) := by
        intro e he hw
        have h1 : charListLt e.1.data xk.data = true :=
          lt_of_prefix_of_not_prefix hw (hge (xk, xv) (List.mem_cons_self _ _))
            (show p.data.isPrefixOf xk.data = false by
              cases hx : p.data.isPrefixOf xk.data
              · rfl
              · exact absurd (show jsStartsWith xk p = true from hx) hpre)
        have h2 : strLt xk e.1 = true := hs.1 e he
        have := charListLt_asymm h2
        rw [h1] at this
        exact absurd this (by simp)
      rw [e1, List.filter_cons_of_neg (by simpa using hpre),
        List.filter_eq_nil_iff.mpr hrest]
      rfl

/-- On a sorted store, `searchKeys` with only `$startsWith` returns the
concatenated posting lists of exactly the keys with prefix `p`. -/
theorem searchKeys_prefix_filter {K : Type} (st : PStore K) (p : String)
    (hs : storeSorted st) :
    searchKeys st ⟨none, some p⟩ =
      (st.filter (fun e => jsStartsWith e.1 p)).flatMap Prod.snd := by
  show scanLoop p (seekTo p st) [] = _
  rw [scanLoop_eq_filter (seekTo_not_lt hs) (storeSorted_seekTo hs)]
  congr 1
  conv_rhs => rw [← List.takeWhile_append_dropWhile (fun e => strLt e.1 p) st]
  rw [List.filter_append]
  have htake : (st.takeWhile (fun e => strLt e.1 p)).filter
      (fun e => jsStartsWith e.1 p) = [] := by
    rw [List.filter_eq_nil_iff]
    intro e he hw
    have hlt : charListLt e.1.data p.data = true := by
      simpa using List.mem_takeWhile_imp he
    have hnot := prefix_not_lt (show p.data.isPrefixOf e.1.data = true from hw)
    rw [hnot] at hlt
    exact absurd hlt (by simp)
  rw [htake, List.nil_append]
  rfl

/-! ## Rebuild-loop theory -/

theorem buildLoop_mem_mono {K : Type} [DecidableEq K] {field : String}
    {docs : List (K × Doc)} {ps : PStore K} {k0 : K} {v : String}
    (h : k0 ∈ lookupD ps v) : k0 ∈ lookupD (buildLoop field docs ps).1 v := by
  induction docs generalizing ps with
  | nil => exact h
  | cons e rest ih =>
    obtain ⟨key, value⟩ := e
    simp only [buildLoop]
    cases hik : indexKeyOf value field with
    | none => exact h
    | some ik =>
      dsimp only
      by_cases hm : key ∈ lookupD ps ik
      · rw [if_pos hm]
        exact ih h
      · rw [if_neg hm]
        apply ih
        rw [lookupD_putStore]
        by_cases hv : ik = v
        · rw [if_pos hv]
          subst hv
          exact List.mem_append_left _ h
        · rw [if_neg hv]
          exact h

theorem buildLoop_complete {K : Type} [DecidableEq K] {field : String}
    {docs : List (K × Doc)} {ps : PStore K}
    (hsucc : (buildLoop field docs ps).2 = none) :
    ∀ e ∈ docs, ∃ v, indexKeyOf e.2 field = some v ∧
      e.1 ∈ lookupD (buildLoop field docs ps).1 v := by
  induction docs generalizing ps with
  | nil => intro e he; simp at he
  | cons x rest ih =>
    obtain ⟨key, value⟩ := x
    intro e he
    simp only [buildLoop] at hsucc ⊢
    cases hik : indexKeyOf value field with
    | none =>
      rw [hik] at hsucc
      simp at hsucc
    | some ik =>
      rw [hik] at hsucc
      dsimp only at hsucc ⊢
      by_cases hm : key ∈ lookupD ps ik
      · rw [if_pos hm] at hsucc ⊢
        rcases List.mem_cons.mp he with rfl | he'
        · exact ⟨ik, hik, buildLoop_mem_mono hm⟩
        · exact ih hsucc e he'
      · rw [if_neg hm] at hsucc ⊢
        rcases List.mem_cons.mp he with rfl | he'
        · refine ⟨ik, hik, buildLoop_mem_mono ?_⟩
          rw [lookupD_putStore, if_pos rfl]
          exact List.mem_append_right _ (List.mem_singleton.mpr rfl)
        · exact ih hsucc e he'

theorem buildLoop_mem_source {K : Type} [DecidableEq K] {field : String}
    {docs : List (K × Doc)} {ps : PStore K} {k0 : K} {v : String}
    (h : k0 ∈ lookupD (buildLoop field docs ps).1 v) :
    k0 ∈ lookupD ps v ∨ ∃ d, (k0, d) ∈ docs ∧ indexKeyOf d field = some v := by
  induction docs generalizing ps with
  | nil => exact Or.inl h
  | cons x rest ih =>
    obtain ⟨key, value⟩ := x
    simp only [buildLoop] at h
    cases hik : indexKeyOf value field with
    | none =>
      rw [hik] at h
      exact Or.inl h
    | some ik =>
      rw [hik] at h
      dsimp only at h
      by_cases hm : key ∈ lookupD ps ik
      · rw [if_pos hm] at h
        rcases ih h with h' | ⟨d, hd, hkd⟩
        · exact Or.inl h'
        · exact Or.inr ⟨d, List.mem_cons_of_mem _ hd, hkd⟩
      · rw [if_neg hm] at h
        rcases ih h with h' | ⟨d, hd, hkd⟩
        · rw [lookupD_putStore] at h'
          by_cases hv : ik = v
          · rw [if_pos hv] at h'
            subst hv
            rcases List.mem_append.mp h' with h'' | h''
            · exact Or.inl h''
            · rw [List.mem_singleton] at h''
              subst h''
              exact Or.inr ⟨value, List.mem_cons_self _ _, hik⟩
          · rw [if_neg hv] at h'
            exact Or.inl h'
        · exact Or.inr ⟨d, List.mem_cons_of_mem _ hd, hkd⟩

theorem buildLoop_stable {K : Type} [DecidableEq K] {field : String}
    {docs : List (K × Doc)} {ps : PStore K}
    (h : ∀ e ∈ docs, ∃ v, indexKeyOf e.2 field = some v ∧ e.1 ∈ lookupD ps v) :
    buildLoop field docs ps = (ps, none) := by
  induction docs with
  | nil => rfl
  | cons x rest ih =>
    obtain ⟨key, value⟩ := x
    obtain ⟨v, hik, hmem⟩ := h (key, value) (List.mem_cons_self _ _)
    simp only [buildLoop]
    rw [hik]
    dsimp only
    rw [if_pos hmem]
    exact ih fun e he => h e (List.mem_cons_of_mem _ he)

theorem buildLoop_nodup {K : Type} [DecidableEq K] {field : String}
    {docs : List (K × Doc)} {ps : PStore K}
    (h : ∀ v, (lookupD ps v).Nodup) :
    ∀ v, (lookupD (buildLoop field docs ps).1 v).Nodup := by
  induction docs generalizing ps with
  | nil => exact h
  | cons x rest ih =>
    obtain ⟨key, value⟩ := x
    intro v
    simp only [buildLoop]
    cases hik : indexKeyOf value field with
    | none => exact h v
    | some ik =>
      dsimp only
      by_cases hm : key ∈ lookupD ps ik
      · rw [if_pos hm]
        exact ih h v
      · rw [if_neg hm]
        apply ih
        intro w
        rw [lookupD_putStore]
        by_cases hv : ik = w
        · rw [if_pos hv]
          subst hv
          simp [List.Nodup.append, h ik, hm, List.nodup_append]
        · rw [if_neg hv]
          exact h w

/-! ## Case equations for `createIndex` -/

theorem createIndexRun_rec_ok {K : Type} [DecidableEq K] {db : DB K}
    {opts : IndexOptions} {ps' : PStore K}
    (ht : opts.type = "number" ∨ opts.type = "text")
    (hb : buildLoop opts.field db.primary (storeOf db opts.name) = (ps', none)) :
    createIndexRun db opts =
      ({ db with stores := assocPut db.stores opts.name ps',
                 meta := assocPut db.meta opts.name ⟨opts.field, opts.type⟩ },
       none) := by
  simp only [createIndexRun, if_pos ht]
  rw [hb]

theorem createIndexRun_rec_err {K : Type} [DecidableEq K] {db : DB K}
    {opts : IndexOptions} {ps' : PStore K} {e : StoreErr}
    (ht : opts.type = "number" ∨ opts.type = "text")
    (hb : buildLoop opts.field db.primary (storeOf db opts.name) = (ps', some e)) :
    createIndexRun db opts =
      ({ db with stores := assocPut db.stores opts.name ps' }, some e) := by
  simp only [createIndexRun, if_pos ht]
  rw [hb]

theorem createIndexRun_unrec {K : Type} [DecidableEq K] {db : DB K}
    {opts : IndexOptions} (ht : ¬(opts.type = "number" ∨ opts.type = "text")) :
    createIndexRun db opts =
      ({ db with stores := assocPut db.stores opts.name (storeOf db opts.name),
                 meta := assocPut db.meta opts.name ⟨opts.field, opts.type⟩ },
       none) := by
  simp only [createIndexRun, if_neg ht]

/-! ## Claim theorems: the predicate matcher -/

/-- C1.  For every document `d` and query `q` (that does not raise a shape
error), `match(q, d)` returns exactly the result described by the claim:
iterating `q`'s keys in order, a `$or` key returns at once whether at
least one sub-query matches (later siblings are never evaluated), a
field-predicate key whose field is present and whose operator evaluates
false makes the result false, an absent field is treated as satisfied,
and a query with no keys matches vacuously true. -/
theorem match_returns_described (q : Query) (d : Doc)
    (h : raisesShapeError q d = false) :
    matchQ q d = Except.ok (matchDescribed q d) :=
  (matchQ_spec q d).2 h

/-- C8.  `match` raises an `InvalidQueryShape` error iff, before any
earlier key causes a return, the iteration reaches a `$or` key whose
value is not an array or a field-predicate key whose value is an array;
the thrown error aborts the whole call at once (the `Except` short
circuits). -/
theorem match_raises_iff (q : Query) (d : Doc) :
    isErr (matchQ q d) = raisesShapeError q d := by
  cases h : raisesShapeError q d
  · rw [(matchQ_spec q d).2 h]; rfl
  · exact (matchQ_spec q d).1 h

/-- C9.  `evaluate` consults only the first recognized operator key:
`$eq` tests strict equality with the operand, `$neq` strict difference,
`$gt` tests greater-than with an absent/undefined operand treated as
numeric zero, and with no recognized operator key the result is false. -/
theorem evaluate_consults_first_recognized (it : QueryItem) (v : JsValue) :
    evaluate it v = evaluateDescribed it v := by
  induction it with
  | nil => rfl
  | cons e rest ih =>
    cases e with
    | opEq s => rfl
    | opNeq s => rfl
    | opGt n => rfl
    | other k =>
      rw [evaluate, ih]
      rfl

/-! ## Claim theorems: round trip, search accumulation -/

/-- C2.  For every key and document, `insert(k, d)` followed by `get(k)`
returns a value deep-equal to `d`, whatever indexes are registered: the
index rebuilds the insert triggers never alter the primary store. -/
theorem insert_get_roundtrip {K : Type} [LinearOrder K] (db : DB K) (k : K)
    (d : Doc) : getRun (insertRun db k d).1 k = some d := by
  unfold insertRun getRun rebuildAll
  rw [rebuildList_primary]
  simp [lookupF_putSorted]

/-- C6.  `search` accumulates keys as the claim states: a present `$eq`
is an exact point lookup whose miss is recovered locally as the empty
list (the accumulation is total — no failure reaches the caller), and
with both `$eq` and `$startsWith` present the two branches run in
sequence and their key lists are concatenated — `$eq` keys first, no
intersection, no deduplication. -/
theorem search_eq_and_prefix_concat {K : Type} (st : PStore K) (e p : String) :
    searchKeys st ⟨some e, none⟩ = (lookupF st e).getD [] ∧
    searchKeys st ⟨some e, some p⟩ =
      searchKeys st ⟨some e, none⟩ ++ searchKeys st ⟨none, some p⟩ := by
  refine ⟨rfl, ?_⟩
  show scanLoop p (seekTo p st) ((lookupF st e).getD []) = _
  rw [scanLoop_append]
  rfl

/-! ## Idempotence and dedup infrastructure -/

theorem createIndexRun_idem {K : Type} [DecidableEq K] {db db1 : DB K}
    {opts : IndexOptions} (h : createIndexRun db opts = (db1, none)) :
    createIndexRun db1 opts = (db1, none) := by
  by_cases ht : opts.type = "number" ∨ opts.type = "text"
  · rcases hb : buildLoop opts.field db.primary (storeOf db opts.name) with ⟨ps', err⟩
    cases err with
    | some e =>
      rw [createIndexRun_rec_err ht hb] at h
      have := congrArg Prod.snd h
      simp at this
    | none =>
      rw [createIndexRun_rec_ok ht hb] at h
      have hdb1 : db1 = { db with
                          stores := assocPut db.stores opts.name ps',
                          meta := assocPut db.meta opts.name
                            ⟨opts.field, opts.type⟩ } :=
        (congrArg Prod.fst h).symm
      have h1 : db1.primary = db.primary := by rw [hdb1]
      have h2 : db1.stores = assocPut db.stores opts.name ps' := by rw [hdb1]
      have h3 : db1.meta = assocPut db.meta opts.name ⟨opts.field, opts.type⟩ := by
        rw [hdb1]
      have hso : storeOf db1 opts.name = ps' := by
        rw [storeOf, h2, lookupF_assocPut]
        simp
      have hb2 : buildLoop opts.field db1.primary (storeOf db1 opts.name) =
          (ps', none) := by
        rw [h1, hso]
        apply buildLoop_stable
        intro e he
        obtain ⟨v, hv1, hv2⟩ := buildLoop_complete (by rw [hb]) e he
        rw [hb] at hv2
        exact ⟨v, hv1, hv2⟩
      rw [createIndexRun_rec_ok ht hb2]
      have hst : assocPut db1.stores opts.name ps' = db1.stores := by
        rw [h2, assocPut_idem]
      have hmt : assocPut db1.meta opts.name
          (⟨opts.field, opts.type⟩ : IndexDef) = db1.meta := by
        rw [h3, assocPut_idem]
      rw [hst, hmt]
  · rw [createIndexRun_unrec ht] at h
    have hdb1 : db1 = { db with
                        stores := assocPut db.stores opts.name (storeOf db opts.name),
                        meta := assocPut db.meta opts.name ⟨opts.field, opts.type⟩ } :=
      (congrArg Prod.fst h).symm
    have h2 : db1.stores = assocPut db.stores opts.name (storeOf db opts.name) := by
      rw [hdb1]
    have h3 : db1.meta = assocPut db.meta opts.name ⟨opts.field, opts.type⟩ := by
      rw [hdb1]
    have hso : storeOf db1 opts.name = storeOf db opts.name := by
      rw [storeOf, h2, lookupF_assocPut]
      simp
    rw [createIndexRun_unrec ht]
    have hst : assocPut db1.stores opts.name (storeOf db1 opts.name) = db1.stores := by
      rw [hso, h2, assocPut_idem]
    have hmt : assocPut db1.meta opts.name
        (⟨opts.field, opts.type⟩ : IndexDef) = db1.meta := by
      rw [h3, assocPut_idem]
    rw [hst, hmt]

theorem createIndexRun_allNodup {K : Type} [DecidableEq K] {db : DB K}
    (opts : IndexOptions)
    (h : ∀ name v, (lookupD (storeOf db name) v).Nodup) :
    ∀ name v, (lookupD (storeOf (createIndexRun db opts).1 name) v).Nodup := by
  intro name v
  have hb' : ∀ w, (lookupD (buildLoop opts.field db.primary (storeOf db opts.name)).1 w).Nodup :=
    buildLoop_nodup (h opts.name)
  by_cases ht : opts.type = "number" ∨ opts.type = "text"
  · rcases hb : buildLoop opts.field db.primary (storeOf db opts.name) with ⟨ps', err⟩
    rw [hb] at hb'
    have hb'' : ∀ w, (lookupD ps' w).Nodup := hb'
    cases err with
    | none =>
      rw [createIndexRun_rec_ok ht hb]
      by_cases hn : opts.name = name
      · have : storeOf { db with
            stores := assocPut db.stores opts.name ps',
            meta := assocPut db.meta opts.name ⟨opts.field, opts.type⟩ } name = ps' := by
          rw [storeOf, lookupF_assocPut, if_pos hn]
          rfl
        rw [this]
        exact hb'' v
      · have : storeOf { db with
            stores := assocPut db.stores opts.name ps',
            meta := assocPut db.meta opts.name ⟨opts.field, opts.type⟩ } name =
            storeOf db name := by
          rw [storeOf, lookupF_assocPut, if_neg hn]
          rfl
        rw [this]
        exact h name v
    | some e =>
      rw [createIndexRun_rec_err ht hb]
      by_cases hn : opts.name = name
      · have : storeOf { db with stores := assocPut db.stores opts.name ps' } name =
            ps' := by
          rw [storeOf, lookupF_assocPut, if_pos hn]
          rfl
        rw [this]
        exact hb'' v
      · have : storeOf { db with stores := assocPut db.stores opts.name ps' } name =
            storeOf db name := by
          rw [storeOf, lookupF_assocPut, if_neg hn]
          rfl
        rw [this]
        exact h name v
  · rw [createIndexRun_unrec ht]
    by_cases hn : opts.name = name
    · have : storeOf { db with
          stores := assocPut db.stores opts.name (storeOf db opts.name),
          meta := assocPut db.meta opts.name ⟨opts.field, opts.type⟩ } name =
          storeOf db opts.name := by
        rw [storeOf, lookupF_assocPut, if_pos hn]
        rfl
      rw [this]
      exact h opts.name v
    · have : storeOf { db with
          stores := assocPut db.stores opts.name (storeOf db opts.name),
          meta := assocPut db.meta opts.name ⟨opts.field, opts.type⟩ } name =
          storeOf db name := by
        rw [storeOf, lookupF_assocPut, if_neg hn]
        rfl
      rw [this]
      exact h name v

theorem rebuildList_allNodup {K : Type} [DecidableEq K]
    (l : List (String × IndexDef)) (db : DB K)
    (h : ∀ name v, (lookupD (storeOf db name) v).Nodup) :
    ∀ name v, (lookupD (storeOf (rebuildList db l).1 name) v).Nodup := by
  induction l generalizing db with
  | nil => exact h
  | cons e rest ih =>
    obtain ⟨n, idef⟩ := e
    simp only [rebuildList]
    rcases hm : createIndexRun db ⟨n, idef.field, idef.type⟩ with ⟨db', err⟩
    have hn' : ∀ name v, (lookupD (storeOf db' name) v).Nodup := by
      have hall := createIndexRun_allNodup ⟨n, idef.field, idef.type⟩ h
      rw [hm] at hall
      exact hall
    cases err with
    | none => exact ih db' hn'
    | some e' => exact hn'

/-- If every document in the primary store defines the indexed field, the
rebuild loop never rejects. -/
theorem buildLoop_ok_of_fields {K : Type} [DecidableEq K] {field : String}
    {docs : List (K × Doc)} {ps : PStore K}
    (h : ∀ e ∈ docs, (indexKeyOf e.2 field).isSome) :
    (buildLoop field docs ps).2 = none := by
  induction docs generalizing ps with
  | nil => rfl
  | cons x rest ih =>
    obtain ⟨key, value⟩ := x
    simp only [buildLoop]
    cases hik : indexKeyOf value field with
    | none =>
      have := h (key, value) (List.mem_cons_self _ _)
      rw [hik] at this
      simp at this
    | some ik =>
      dsimp only
      by_cases hm : key ∈ lookupD ps ik
      · rw [if_pos hm]
        exact ih fun e he => h e (List.mem_cons_of_mem _ he)
      · rw [if_neg hm]
        exact ih fun e he => h e (List.mem_cons_of_mem _ he)

/-! ## Claim theorems: index maintenance -/

/-- C4.  `createIndex` is idempotent and posting lists are deduplicated
by membership: a second `createIndex` with identical parameters on the
unchanged primary store returns the identical state (in particular the
identical posting lists), and every posting list stays duplicate-free
under `createIndex` rebuilds and under the rebuilds every `insert`
triggers. -/
theorem createIndex_idempotent_and_dedup {K : Type} [LinearOrder K] (db : DB K)
    (opts : IndexOptions) :
    ((createIndexRun db opts).2 = none →
      createIndexRun (createIndexRun db opts).1 opts =
        ((createIndexRun db opts).1, none)) ∧
    ((∀ name v, (lookupD (storeOf db name) v).Nodup) →
      (∀ name v, (lookupD (storeOf (createIndexRun db opts).1 name) v).Nodup) ∧
      ∀ k d name v, (lookupD (storeOf (insertRun db k d).1 name) v).Nodup) := by
  constructor
  · intro hsucc
    apply createIndexRun_idem
    rw [← hsucc]
  · intro h
    refine ⟨createIndexRun_allNodup opts h, ?_⟩
    intro k d name v
    unfold insertRun rebuildAll
    exact rebuildList_allNodup _ { db with primary := putSorted db.primary k d }
      (fun name' v' => h name' v') name v

/-- C7 counterexample: `createIndex` with the unrecognized kind
`"vector"` does not fail — it returns without error and still records the
definition in metadata, contradicting the claimed `InvalidIndexKind`
failure. -/
theorem createIndex_unknown_kind_counterexample :
    (createIndexRun (⟨[], [], []⟩ : DB Nat) ⟨"embedding", "vec", "vector"⟩).2 =
      none ∧
    lookupF (createIndexRun (⟨[], [], []⟩ : DB Nat)
      ⟨"embedding", "vec", "vector"⟩).1.meta "embedding" =
      some ⟨"vec", "vector"⟩ ∧
    ("vector" ≠ "text" ∧ "vector" ≠ "number") := by
  decide

/-- C7 amended.  `createIndex` never raises an `InvalidIndexKind` error:
a kind that is neither Text nor Number skips the posting rebuild entirely
but still records the definition in metadata and completes without error;
for the two recognized kinds the rebuild pass runs (succeeding whenever
every document defines the indexed field) and the definition is recorded
in metadata on success. -/
theorem createIndex_kind_behaviour {K : Type} [DecidableEq K] (db : DB K)
    (opts : IndexOptions) :
    (¬(opts.type = "number" ∨ opts.type = "text") →
      createIndexRun db opts =
        ({ db with stores := assocPut db.stores opts.name (storeOf db opts.name),
                   meta := assocPut db.meta opts.name ⟨opts.field, opts.type⟩ },
         none)) ∧
    ((∀ e ∈ db.primary, (indexKeyOf e.2 opts.field).isSome) →
      (createIndexRun db opts).2 = none ∧
      lookupF (createIndexRun db opts).1.meta opts.name =
        some ⟨opts.field, opts.type⟩) := by
  constructor
  · exact createIndexRun_unrec
  · intro hf
    by_cases ht : opts.type = "number" ∨ opts.type = "text"
    · rcases hb : buildLoop opts.field db.primary (storeOf db opts.name) with ⟨ps', err⟩
      cases err with
      | none =>
        rw [createIndexRun_rec_ok ht hb]
        refine ⟨rfl, ?_⟩
        show lookupF (assocPut db.meta opts.name ⟨opts.field, opts.type⟩) opts.name = _
        rw [lookupF_assocPut, if_pos rfl]
      | some e =>
        have hok : (buildLoop opts.field db.primary (storeOf db opts.name)).2 =
            none := buildLoop_ok_of_fields hf
        rw [hb] at hok
        simp at hok
    · rw [createIndexRun_unrec ht]
      refine ⟨rfl, ?_⟩
      show lookupF (assocPut db.meta opts.name ⟨opts.field, opts.type⟩) opts.name = _
      rw [lookupF_assocPut, if_pos rfl]

/-- C10.  A `search` whose query has neither `$eq` nor `$startsWith`
accumulates no keys and returns the empty result without reading the
primary store (the `getMany` branch is never taken). -/
theorem search_without_operators_is_empty {K : Type} [DecidableEq K] (db : DB K)
    (idx : String) (st : PStore K) :
    searchKeys st ⟨none, none⟩ = [] ∧ searchRun db idx ⟨none, none⟩ = [] :=
  ⟨rfl, rfl⟩

/-! ## Claim theorem: prefix search -/

theorem storeSorted_nodupKeys {K : Type} {st : PStore K} (hs : storeSorted st) :
    (st.map Prod.fst).Nodup := by
  rw [storeSorted] at hs
  refine List.Pairwise.map Prod.fst ?_ hs
  intro a b hab heq
  rw [heq, strLt_irrefl] at hab
  exact Bool.noConfusion hab

/-- C5.  On a lexicographically ordered posting store, the `$startsWith`
search accumulates exactly the posting lists of the keys with prefix `p`
(the seek skips the keys ordered before `p`, the scan stops at the first
non-matching key, and nothing outside the contiguous prefix range is
collected); on a store freshly built from the primary store, the search
therefore returns exactly the documents whose indexed field value has
prefix `p`. -/
theorem prefix_search_exact {K : Type} [LinearOrder K] (db : DB K)
    (idx p field : String) (st : PStore K)
    (hst : lookupF db.stores idx = some st) (hsort : storeSorted st) :
    searchKeys st ⟨none, some p⟩ =
      (st.filter (fun e => jsStartsWith e.1 p)).flatMap Prod.snd ∧
    (buildLoop field db.primary ([] : PStore K) = (st, none) →
      (db.primary.map Prod.fst).Nodup →
      ∀ d : Doc, some d ∈ searchRun db idx ⟨none, some p⟩ ↔
        ∃ k v, lookupF db.primary k = some d ∧
          indexKeyOf d field = some v ∧ jsStartsWith v p = true) := by
  have hstore : storeOf db idx = st := by
    rw [storeOf, hst]
    rfl
  refine ⟨searchKeys_prefix_filter st p hsort, ?_⟩
  intro hbuild hnd d
  have hidx : ∀ (k0 : K) (v : String), k0 ∈ lookupD st v ↔
      ∃ d0, (k0, d0) ∈ db.primary ∧ indexKeyOf d0 field = some v := by
    intro k0 v
    constructor
    · intro hk
      have hk' : k0 ∈ lookupD (buildLoop field db.primary ([] : PStore K)).1 v := by
        rw [hbuild]
        exact hk
      rcases buildLoop_mem_source hk' with h0 | h0
      · simp [lookupD, lookupF] at h0
      · exact h0
    · rintro ⟨d0, hmem, hik⟩
      obtain ⟨v', hik', hmem'⟩ := buildLoop_complete (by rw [hbuild]) (k0, d0) hmem
      rw [hik] at hik'
      have hv : v = v' := by injection hik'
      rw [hbuild] at hmem'
      rw [hv]
      exact hmem'
  have hkeys_eq : searchKeys (storeOf db idx) ⟨none, some p⟩ =
      (st.filter (fun e => jsStartsWith e.1 p)).flatMap Prod.snd := by
    rw [hstore]
    exact searchKeys_prefix_filter st p hsort
  have hndk : (st.map Prod.fst).Nodup := storeSorted_nodupKeys hsort
  have hkc : ∀ k0 : K, k0 ∈ searchKeys (storeOf db idx) ⟨none, some p⟩ ↔
      ∃ v, jsStartsWith v p = true ∧ k0 ∈ lookupD st v := by
    intro k0
    rw [hkeys_eq, List.mem_flatMap]
    constructor
    · rintro ⟨e, hef, hke⟩
      obtain ⟨ek, ev⟩ := e
      obtain ⟨hest, hep⟩ := List.mem_filter.mp hef
      refine ⟨ek, by simpa using hep, ?_⟩
      rw [lookupD, mem_lookupF hndk hest]
      exact hke
    · rintro ⟨v, hvp, hkv⟩
      cases hl : lookupF st v with
      | none =>
        rw [lookupD, hl] at hkv
        simp at hkv
      | some l =>
        rw [lookupD, hl] at hkv
        refine ⟨(v, l), List.mem_filter.mpr ⟨lookupF_mem hl, by simpa using hvp⟩, hkv⟩
  show some d ∈ (if (searchKeys (storeOf db idx) ⟨none, some p⟩).length ≠ 0
      then getMany db (searchKeys (storeOf db idx) ⟨none, some p⟩) else []) ↔ _
  by_cases hlen : (searchKeys (storeOf db idx) ⟨none, some p⟩).length ≠ 0
  · rw [if_pos hlen]
    rw [getMany, List.mem_map]
    constructor
    · rintro ⟨k, hk, hfk⟩
      obtain ⟨v, hvp, hkv⟩ := (hkc k).mp hk
      obtain ⟨d0, hd0, hik0⟩ := (hidx k v).mp hkv
      have hlk : lookupF db.primary k = some d0 := mem_lookupF hnd hd0
      rw [hfk] at hlk
      have hdd : d = d0 := by injection hlk
      subst hdd
      exact ⟨k, v, hfk, hik0, hvp⟩
    · rintro ⟨k, v, hfk, hik, hvp⟩
      have hd0 : (k, d) ∈ db.primary := lookupF_mem hfk
      have hkv : k ∈ lookupD st v := (hidx k v).mpr ⟨d, hd0, hik⟩
      exact ⟨k, (hkc k).mpr ⟨v, hvp, hkv⟩, hfk⟩
  · rw [if_neg hlen]
    constructor
    · intro h
      simp at h
    · rintro ⟨k, v, hfk, hik, hvp⟩
      have hk : k ∈ searchKeys (storeOf db idx) ⟨none, some p⟩ :=
        (hkc k).mpr ⟨v, hvp, (hidx k v).mpr ⟨d, lookupF_mem hfk, hik⟩⟩
      have hne : searchKeys (storeOf db idx) ⟨none, some p⟩ ≠ [] :=
        List.ne_nil_of_mem hk
      rw [not_not, List.length_eq_zero] at hlen
      exact absurd hlen hne

/-! ## Claim theorem: transaction deferral -/

theorem applyBody_stores_meta {K : Type} [LinearOrder K] (db : DB K)
    (pre : List (K × Doc)) :
    (applyBody db pre).stores = db.stores ∧ (applyBody db pre).meta = db.meta := by
  induction pre generalizing db with
  | nil => exact ⟨rfl, rfl⟩
  | cons x rest ih => exact ih (txInsert db x.1 x.2)

theorem lastW_init {K : Type} [DecidableEq K] (rest : List (K × Doc)) (k : K)
    (a : Option Doc) :
    rest.foldl (fun acc kd => if kd.1 = k then some kd.2 else acc) a =
      match lastW rest k with
      | some d => some d
      | none => a := by
  induction rest generalizing a with
  | nil => rfl
  | cons x t ih =>
    rw [List.foldl_cons, ih]
    have h2 : lastW (x :: t) k =
        match lastW t k with
        | some d => some d
        | none => if x.1 = k then some x.2 else none := by
      show t.foldl _ (if x.1 = k then some x.2 else none) = _
      exact ih _
    rw [h2]
    cases lastW t k with
    | some d => rfl
    | none =>
      by_cases h : x.1 = k
      · rw [if_pos h, if_pos h]
      · rw [if_neg h, if_neg h]

theorem lookupF_applyBody {K : Type} [LinearOrder K] (db : DB K)
    (body : List (K × Doc)) (k : K) :
    lookupF (applyBody db body).primary k =
      match lastW body k with
      | some d => some d
      | none => lookupF db.primary k := by
  induction body generalizing db with
  | nil => rfl
  | cons x rest ih =>
    have e1 : applyBody db (x :: rest) = applyBody (txInsert db x.1 x.2) rest := rfl
    rw [e1, ih]
    have h2 : lastW (x :: rest) k =
        match lastW rest k with
        | some d => some d
        | none => if x.1 = k then some x.2 else none := by
      show rest.foldl _ (if x.1 = k then some x.2 else none) = _
      exact lastW_init rest k _
    rw [h2]
    cases lastW rest k with
    | some d => rfl
    | none =>
      show lookupF (putSorted db.primary x.1 x.2) k = _
      rw [lookupF_putSorted]
      by_cases h : x.1 = k
      · rw [if_pos h, if_pos h]
      · rw [if_neg h, if_neg h]

theorem createIndexRun_storeOf_other {K : Type} [DecidableEq K] (db : DB K)
    (opts : IndexOptions) {name : String} (h : opts.name ≠ name) :
    storeOf (createIndexRun db opts).1 name = storeOf db name := by
  by_cases ht : opts.type = "number" ∨ opts.type = "text"
  · rcases hb : buildLoop opts.field db.primary (storeOf db opts.name) with ⟨ps', err⟩
    cases err with
    | none =>
      rw [createIndexRun_rec_ok ht hb]
      show (lookupF (assocPut db.stores opts.name ps') name).getD [] = _
      rw [lookupF_assocPut, if_neg h]
      rfl
    | some e =>
      rw [createIndexRun_rec_err ht hb]
      show (lookupF (assocPut db.stores opts.name ps') name).getD [] = _
      rw [lookupF_assocPut, if_neg h]
      rfl
  · rw [createIndexRun_unrec ht]
    show (lookupF (assocPut db.stores opts.name (storeOf db opts.name)) name).getD [] = _
    rw [lookupF_assocPut, if_neg h]
    rfl

theorem rebuildList_storeOf_other {K : Type} [DecidableEq K]
    {l : List (String × IndexDef)} {db : DB K} {name : String}
    (hn : name ∉ l.map Prod.fst) :
    storeOf (rebuildList db l).1 name = storeOf db name := by
  induction l generalizing db with
  | nil => rfl
  | cons e rest ih =>
    obtain ⟨n0, i0⟩ := e
    rw [List.map_cons, List.mem_cons] at hn
    push_neg at hn
    simp only [rebuildList]
    rcases hm : createIndexRun db ⟨n0, i0.field, i0.type⟩ with ⟨db', err⟩
    have hother : storeOf db' name = storeOf db name := by
      have h0 := createIndexRun_storeOf_other db ⟨n0, i0.field, i0.type⟩
        (fun hx => hn.1 hx.symm)
      rw [hm] at h0
      exact h0
    cases err with
    | none => rw [ih hn.2, hother]
    | some e' => exact hother

theorem createIndexRun_self_complete {K : Type} [DecidableEq K] {db db' : DB K}
    {opts : IndexOptions} (ht : opts.type = "number" ∨ opts.type = "text")
    (hm : createIndexRun db opts = (db', none)) :
    ∀ (k : K) (d : Doc) (v : String), (k, d) ∈ db.primary →
      indexKeyOf d opts.field = some v → k ∈ lookupD (storeOf db' opts.name) v := by
  rcases hb : buildLoop opts.field db.primary (storeOf db opts.name) with ⟨ps', err⟩
  cases err with
  | some e =>
    rw [createIndexRun_rec_err ht hb] at hm
    have := congrArg Prod.snd hm
    simp at this
  | none =>
    rw [createIndexRun_rec_ok ht hb] at hm
    have hdb' : db' = { db with
                        stores := assocPut db.stores opts.name ps',
                        meta := assocPut db.meta opts.name
                          ⟨opts.field, opts.type⟩ } :=
      (congrArg Prod.fst hm).symm
    intro k d v hkd hik
    have hso : storeOf db' opts.name = ps' := by
      rw [hdb']
      show (lookupF (assocPut db.stores opts.name ps') opts.name).getD [] = _
      rw [lookupF_assocPut, if_pos rfl]
      rfl
    rw [hso]
    obtain ⟨v', hik', hm'⟩ := buildLoop_complete (by rw [hb]) (k, d) hkd
    rw [hik] at hik'
    have hv : v = v' := by injection hik'
    rw [hb] at hm'
    rw [hv]
    exact hm'

theorem rebuildList_complete {K : Type} [DecidableEq K]
    {l : List (String × IndexDef)} {db : DB K}
    (hsucc : (rebuildList db l).2 = none) (hnd : (l.map Prod.fst).Nodup)
    (hkinds : ∀ e ∈ l, e.2.type = "number" ∨ e.2.type = "text") :
    ∀ e ∈ l, ∀ (k : K) (d : Doc) (v : String),
      lookupF db.primary k = some d → indexKeyOf d e.2.field = some v →
      k ∈ lookupD (storeOf (rebuildList db l).1 e.1) v := by
  induction l generalizing db with
  | nil => intro e he; simp at he
  | cons x rest ih =>
    obtain ⟨n0, i0⟩ := x
    rw [List.map_cons, List.nodup_cons] at hnd
    simp only [rebuildList] at hsucc ⊢
    rcases hm : createIndexRun db ⟨n0, i0.field, i0.type⟩ with ⟨db', err⟩
    rw [hm] at hsucc
    cases err with
    | some e' => simp at hsucc
    | none =>
      dsimp only at hsucc ⊢
      have hprim : db'.primary = db.primary := by
        have h0 := createIndexRun_primary db ⟨n0, i0.field, i0.type⟩
        rw [hm] at h0
        exact h0
      intro e he k d v hk hik
      rcases List.mem_cons.mp he with rfl | he'
      · have hn0 : n0 ∉ rest.map Prod.fst := hnd.1
        rw [rebuildList_storeOf_other hn0]
        exact createIndexRun_self_complete
          (hkinds (n0, i0) (List.mem_cons_self _ _)) hm k d v
          (lookupF_mem hk) hik
      · have hk' : lookupF db'.primary k = some d := by rw [hprim]; exact hk
        exact ih hsucc hnd.2
          (fun e2 he2 => hkinds e2 (List.mem_cons_of_mem _ he2)) e he' k d v hk' hik

/-- C3.  Transaction deferral: while the body's inserts run through the
restricted view, no posting store (and no metadata) changes at all; a
failing body leaves the state exactly as the inserts wrote it, with every
document written before the failure still in the primary store (last
write per key) and no rebuild performed; a successful body is followed by
one rebuild pass over the registered indexes, after which every document
in the primary store — in particular each of the body's N inserts — is
present in every registered index's posting list for its field value, so
a subsequent search reflects all N. -/
theorem transaction_deferral {K : Type} [LinearOrder K] (db : DB K)
    (body : List (K × Doc)) (hnd : (db.meta.map Prod.fst).Nodup)
    (hkinds : ∀ e ∈ db.meta, e.2.type = "number" ∨ e.2.type = "text") :
    (∀ pre : List (K × Doc), (applyBody db pre).stores = db.stores ∧
      (applyBody db pre).meta = db.meta) ∧
    transactionRun db body true = (applyBody db body, some TxErr.bodyFailed) ∧
    (∀ k : K, lookupF (applyBody db body).primary k =
      match lastW body k with
      | some d => some d
      | none => lookupF db.primary k) ∧
    ((rebuildAll (applyBody db body)).2 = none →
      transactionRun db body false = ((rebuildAll (applyBody db body)).1, none) ∧
      ∀ name idef, lookupF db.meta name = some idef →
        ∀ (k : K) (d : Doc) (v : String),
          lookupF (applyBody db body).primary k = some d →
          indexKeyOf d idef.field = some v →
          k ∈ lookupD (storeOf (transactionRun db body false).1 name) v) := by
  refine ⟨applyBody_stores_meta db, rfl, lookupF_applyBody db body, ?_⟩
  intro hreb
  have hmeta1 : (applyBody db body).meta = db.meta :=
    (applyBody_stores_meta db body).2
  have hall : rebuildAll (applyBody db body) =
      rebuildList (applyBody db body) db.meta := by
    rw [rebuildAll, hmeta1]
  rcases hr : rebuildList (applyBody db body) db.meta with ⟨db2, err⟩
  rw [hall, hr] at hreb
  have herr : err = none := hreb
  subst herr
  have htx : transactionRun db body false = (db2, none) := by
    show (match rebuildAll (applyBody db body) with
          | (db2, none) => (db2, none)
          | (db2, some e) => (db2, some (TxErr.store e))) = (db2, none)
    rw [hall, hr]
  refine ⟨by rw [htx, hall, hr], ?_⟩
  intro name idef hm k d v hk hik
  rw [htx]
  have hcomp := rebuildList_complete
    (show (rebuildList (applyBody db body) db.meta).2 = none by rw [hr]) hnd
    hkinds (name, idef) (lookupF_mem hm) k d v hk hik
  rw [hr] at hcomp
  exact hcomp

/-! ## Witnesses on the concrete fixtures -/

theorem match_returns_described_witness :
    raisesShapeError exampleQuery exampleDoc = false ∧
    matchQ exampleQuery exampleDoc =
      Except.ok (matchDescribed exampleQuery exampleDoc) := by
  have h : raisesShapeError exampleQuery exampleDoc = false := by
    simp [exampleQuery, exampleDoc, raisesShapeError, orRaises, matchDescribed,
      anyDescribed, evaluate, lookupF]
  exact ⟨h, match_returns_described exampleQuery exampleDoc h⟩

theorem transaction_deferral_witness :
    (txDb.meta.map Prod.fst).Nodup ∧
    (∀ e ∈ txDb.meta, e.2.type = "number" ∨ e.2.type = "text") ∧
    ((∀ pre : List (Nat × Doc), (applyBody txDb pre).stores = txDb.stores ∧
        (applyBody txDb pre).meta = txDb.meta) ∧
      transactionRun txDb txBody true =
        (applyBody txDb txBody, some TxErr.bodyFailed) ∧
      (∀ k : Nat, lookupF (applyBody txDb txBody).primary k =
        match lastW txBody k with
        | some d => some d
        | none => lookupF txDb.primary k) ∧
      ((rebuildAll (applyBody txDb txBody)).2 = none →
        transactionRun txDb txBody false =
          ((rebuildAll (applyBody txDb txBody)).1, none) ∧
        ∀ name idef, lookupF txDb.meta name = some idef →
          ∀ (k : Nat) (d : Doc) (v : String),
            lookupF (applyBody txDb txBody).primary k = some d →
            indexKeyOf d idef.field = some v →
            k ∈ lookupD (storeOf (transactionRun txDb txBody false).1 name) v)) := by
  have h1 : (txDb.meta.map Prod.fst).Nodup := by decide
  have h2 : ∀ e ∈ txDb.meta, e.2.type = "number" ∨ e.2.type = "text" := by decide
  exact ⟨h1, h2, transaction_deferral txDb txBody h1 h2⟩

theorem createIndex_idempotent_and_dedup_witness :
    (createIndexRun idxDb idxOpts).2 = none ∧
    createIndexRun (createIndexRun idxDb idxOpts).1 idxOpts =
      ((createIndexRun idxDb idxOpts).1, none) ∧
    ∀ name v,
      (lookupD (storeOf (insertRun idxDb 3 [("title", JsValue.str "Abc")]).1 name)
        v).Nodup := by
  have hs : (createIndexRun idxDb idxOpts).2 = none := by decide
  have hn : ∀ name v, (lookupD (storeOf idxDb name) v).Nodup := by
    intro name v
    simp [idxDb, storeOf, lookupD, lookupF]
  refine ⟨hs, (createIndex_idempotent_and_dedup idxDb idxOpts).1 hs, ?_⟩
  intro name v
  exact ((createIndex_idempotent_and_dedup idxDb idxOpts).2 hn).2
    3 [("title", JsValue.str "Abc")] name v

theorem prefix_search_exact_witness :
    lookupF searchDb.stores "title:text" = some searchSt ∧
    storeSorted searchSt ∧
    buildLoop "title" searchDb.primary ([] : PStore Nat) = (searchSt, none) ∧
    (searchDb.primary.map Prod.fst).Nodup ∧
    searchKeys searchSt ⟨none, some "Node JS"⟩ =
      (searchSt.filter (fun e => jsStartsWith e.1 "Node JS")).flatMap Prod.snd ∧
    ∀ d : Doc,
      some d ∈ searchRun searchDb "title:text" ⟨none, some "Node JS"⟩ ↔
      ∃ k v, lookupF searchDb.primary k = some d ∧
        indexKeyOf d "title" = some v ∧ jsStartsWith v "Node JS" = true := by
  have h1 : lookupF searchDb.stores "title:text" = some searchSt := by decide
  have h2 : storeSorted searchSt := by
    rw [storeSorted, searchSt]
    refine List.Pairwise.cons ?_ (List.pairwise_singleton _ _)
    intro b hb
    rw [List.mem_singleton] at hb
    subst hb
    decide
  have h3 : buildLoop "title" searchDb.primary ([] : PStore Nat) =
      (searchSt, none) := by decide
  have h4 : (searchDb.primary.map Prod.fst).Nodup := by decide
  have hmain := prefix_search_exact searchDb "title:text" "Node JS" "title"
    searchSt h1 h2
  exact ⟨h1, h2, h3, h4, hmain.1, hmain.2 h3 h4⟩

theorem createIndex_kind_behaviour_witness :
    ¬(vecOpts.type = "number" ∨ vecOpts.type = "text") ∧
    createIndexRun vecDb vecOpts =
      ({ vecDb with
         stores := assocPut vecDb.stores vecOpts.name (storeOf vecDb vecOpts.name),
         meta := assocPut vecDb.meta vecOpts.name ⟨vecOpts.field, vecOpts.type⟩ },
       none) ∧
    (∀ e ∈ vecDb.primary, (indexKeyOf e.2 vecOpts.field).isSome) ∧
    ((createIndexRun vecDb vecOpts).2 = none ∧
      lookupF (createIndexRun vecDb vecOpts).1.meta vecOpts.name =
        some ⟨vecOpts.field, vecOpts.type⟩) := by
  have h1 : ¬(vecOpts.type = "number" ∨ vecOpts.type = "text") := by decide
  have h2 : ∀ e ∈ vecDb.primary, (indexKeyOf e.2 vecOpts.field).isSome := by decide
  exact ⟨h1, (createIndex_kind_behaviour vecDb vecOpts).1 h1, h2,
    (createIndex_kind_behaviour vecDb vecOpts).2 h2⟩

end DocDB
